import Mathlib

set_option linter.unnecessarySeqFocus false

/-!
Verification development for the `store` repository.

Part 1 shallowly embeds `memdb/rrdb` (the capacity-bounded store with
random-replacement eviction) from `src/unnamed/part_000`: the Go
`map[string][]byte` becomes an association list with no duplicate keys,
and the nondeterministic choice of the evicted key (Go's arbitrary map
iteration order) becomes an explicit `pick` function constrained to
return a key of the map.

Part 2 shallowly embeds `cache/ttl/ttl.go` (the TTL decorator): slot
arithmetic (`slotNo`), key derivation (`keyWithPrefix`,
`keyWithSlotPrefix`, renamed `valueKey` / `slotKey` here), pointer
recovery (`prunePointer`), the sweep (`prune`) and one iteration of the
scheduler loop (`runPruneOnInterval`).  The generic keyed store
`db.DB` consumed by the TTL layer is an external collaborator of the
repository; it is modelled from the spec's contract (§6) as an
association list with prefix-scoped iteration.
-/

namespace Store

/-- Go `[]byte`, modelled as a list of byte values. -/
abbrev Bytes := List Nat

/-- Error sentinels of the `db` package referenced by the sources
(`ErrEmptyKey`, `ErrNotFound`, `ErrIndexOutOfRange`, `ErrKeyNotFound`),
plus `unmarshalFail` standing for a non-sentinel unmarshalling failure
(`binary.Read` on data that is not a pointer). -/
inductive DbErr where
  | emptyKey
  | notFound
  | indexOutOfRange
  | keyNotFound
  | unmarshalFail
  deriving DecidableEq, Repr

/-- Go map assignment `data[key] = value` on an association list:
replace the binding of `key` if present, otherwise append it. -/
def mapSet {α : Type} : List (String × α) → String → α → List (String × α)
  | [], k, v => [(k, v)]
  | (k', v') :: rest, k, v =>
      if k' = k then (k, v) :: rest else (k', v') :: mapSet rest k v

/-- Go `delete(data, key)` on an association list: remove the binding of
`key` if present (idempotent when absent). -/
def mapDel {α : Type} : List (String × α) → String → List (String × α)
  | [], _ => []
  | (k', v') :: rest, k =>
      if k' = k then rest else (k', v') :: mapDel rest k

/-- Go map lookup `data[key]`. -/
def mapGet {α : Type} : List (String × α) → String → Option α
  | [], _ => none
  | (k', v') :: rest, k => if k' = k then some v' else mapGet rest k

/-- Keys of an association list. -/
def keysOf {α : Type} (data : List (String × α)) : List String :=
  data.map Prod.fst

@[simp] theorem keysOf_nil {α : Type} : keysOf ([] : List (String × α)) = [] := rfl

@[simp] theorem keysOf_cons {α : Type} (k : String) (v : α) (rest : List (String × α)) :
    keysOf ((k, v) :: rest) = k :: keysOf rest := rfl

theorem length_mapSet_le {α : Type} (data : List (String × α)) (k : String) (v : α) :
    (mapSet data k v).length ≤ data.length + 1 := by
  induction data with
  | nil => simp [mapSet]
  | cons p rest ih =>
      obtain ⟨k', v'⟩ := p
      by_cases h : k' = k <;> simp [mapSet, h] <;> omega

theorem length_mapSet_of_mem {α : Type} {data : List (String × α)} {k : String}
    (v : α) (hk : k ∈ keysOf data) : (mapSet data k v).length = data.length := by
  induction data with
  | nil => simp at hk
  | cons p rest ih =>
      obtain ⟨k', v'⟩ := p
      by_cases h : k' = k
      · simp [mapSet, h]
      · rw [keysOf_cons, List.mem_cons] at hk
        rcases hk with hk | hk
        · exact absurd hk.symm h
        · simp [mapSet, h, ih hk]

theorem length_mapSet_of_not_mem {α : Type} {data : List (String × α)} {k : String}
    (v : α) (hk : k ∉ keysOf data) : (mapSet data k v).length = data.length + 1 := by
  induction data with
  | nil => simp [mapSet]
  | cons p rest ih =>
      obtain ⟨k', v'⟩ := p
      rw [keysOf_cons, List.mem_cons] at hk
      push_neg at hk
      by_cases h : k' = k
      · exact absurd h.symm hk.1
      · simp [mapSet, h, ih hk.2]

theorem length_mapDel_le {α : Type} (data : List (String × α)) (k : String) :
    (mapDel data k).length ≤ data.length := by
  induction data with
  | nil => simp [mapDel]
  | cons p rest ih =>
      obtain ⟨k', v'⟩ := p
      by_cases h : k' = k <;> simp [mapDel, h] <;> omega

theorem length_mapDel_of_mem {α : Type} {data : List (String × α)} {k : String}
    (hk : k ∈ keysOf data) : (mapDel data k).length + 1 = data.length := by
  induction data with
  | nil => simp at hk
  | cons p rest ih =>
      obtain ⟨k', v'⟩ := p
      by_cases h : k' = k
      · simp [mapDel, h]
      · rw [keysOf_cons, List.mem_cons] at hk
        rcases hk with hk | hk
        · exact absurd hk.symm h
        · simp [mapDel, h, ih hk]

theorem mem_keysOf_mapDel {α : Type} {data : List (String × α)} {k a : String}
    (hnd : (keysOf data).Nodup) :
    a ∈ keysOf (mapDel data k) ↔ a ∈ keysOf data ∧ a ≠ k := by
  induction data with
  | nil => simp [mapDel]
  | cons p rest ih =>
      obtain ⟨k', v'⟩ := p
      rw [keysOf_cons, List.nodup_cons] at hnd
      by_cases h : k' = k
      · subst h
        simp only [mapDel, if_pos rfl, keysOf_cons, List.mem_cons]
        constructor
        · intro ha
          refine ⟨Or.inr ha, fun hak => hnd.1 ?_⟩
          rw [hak] at ha
          exact ha
        · rintro ⟨ha | ha, hne⟩
          · exact absurd ha hne
          · exact ha
      · simp only [mapDel, if_neg h, keysOf_cons, List.mem_cons]
        constructor
        · rintro (ha | ha)
          · exact ⟨Or.inl ha, fun hak => h (by rw [← ha, hak])⟩
          · have := (ih hnd.2).1 ha
            exact ⟨Or.inr this.1, this.2⟩
        · rintro ⟨ha | ha, hne⟩
          · exact Or.inl ha
          · exact Or.inr ((ih hnd.2).2 ⟨ha, hne⟩)

theorem nodup_keysOf_mapDel {α : Type} {data : List (String × α)} (k : String)
    (hnd : (keysOf data).Nodup) : (keysOf (mapDel data k)).Nodup := by
  induction data with
  | nil => simp [mapDel]
  | cons p rest ih =>
      obtain ⟨k', v'⟩ := p
      rw [keysOf_cons, List.nodup_cons] at hnd
      by_cases h : k' = k
      · simpa [mapDel, h] using hnd.2
      · rw [mapDel, if_neg h, keysOf_cons, List.nodup_cons]
        refine ⟨?_, ih hnd.2⟩
        intro hmem
        exact hnd.1 ((mem_keysOf_mapDel (k := k) (a := k') hnd.2).1 hmem).1

theorem mem_keysOf_mapSet {α : Type} (data : List (String × α)) (k a : String) (v : α) :
    a ∈ keysOf (mapSet data k v) ↔ a ∈ keysOf data ∨ a = k := by
  induction data with
  | nil => simp [mapSet]
  | cons p rest ih =>
      obtain ⟨k', v'⟩ := p
      by_cases h : k' = k
      · subst h
        have e : mapSet ((k', v') :: rest) k' v = (k', v) :: rest := by
          simp [mapSet]
        rw [e]
        simp only [keysOf_cons, List.mem_cons]
        tauto
      · simp only [mapSet, if_neg h, keysOf_cons, List.mem_cons, ih]
        tauto

theorem nodup_keysOf_mapSet {α : Type} {data : List (String × α)} (k : String) (v : α)
    (hnd : (keysOf data).Nodup) : (keysOf (mapSet data k v)).Nodup := by
  induction data with
  | nil => simp [mapSet]
  | cons p rest ih =>
      obtain ⟨k', v'⟩ := p
      rw [keysOf_cons, List.nodup_cons] at hnd
      by_cases h : k' = k
      · subst h
        rw [mapSet, if_pos rfl, keysOf_cons, List.nodup_cons]
        exact hnd
      · rw [mapSet, if_neg h, keysOf_cons, List.nodup_cons]
        refine ⟨?_, ih hnd.2⟩
        intro hmem
        rcases (mem_keysOf_mapSet rest k k' v).1 hmem with hm | hm
        · exact hnd.1 hm
        · exact h hm

/-- The `rrdb` struct: capacity (a Go `int`, so modelled as `Int`) and the
`map[string][]byte` of current entries (association list, keys unique). -/
structure Rrdb where
  cap : Int
  data : List (String × Bytes)
  deriving DecidableEq, Repr

/-- `New(cap)`: empty store with the given capacity. -/
def rrdbNew (cap : Int) : Rrdb := { cap := cap, data := [] }

/-- `rrdb.Insert`: reject the empty key; if `len(data) >= cap`, evict one
arbitrary existing entry (the first key yielded by Go's arbitrary-order map
range, modelled by the explicit choice function `pick`) and then assign
`data[key] = value`.  `pick` faithfully models the range loop only when it
returns a key of the map on nonempty maps; theorems assume exactly that. -/
def rrdbInsert (pick : List (String × Bytes) → String) (s : Rrdb)
    (key : String) (value : Bytes) : Except DbErr Rrdb :=
  if key = "" then .error .emptyKey
  else
    let data1 := if (s.data.length : Int) ≥ s.cap then mapDel s.data (pick s.data) else s.data
    .ok { s with data := mapSet data1 key value }

/-- `rrdb.Get`. -/
def rrdbGet (s : Rrdb) (key : String) : Except DbErr Bytes :=
  match mapGet s.data key with
  | some v => .ok v
  | none => .error .notFound

/-- `rrdb.Delete`: unconditional `delete(data, key)`, never an error. -/
def rrdbDelete (s : Rrdb) (key : String) : Rrdb :=
  { s with data := mapDel s.data key }

/-- `rrdb.Size`: `len(data)` as a Go `int`. -/
def rrdbSize (s : Rrdb) : Int :=
  (s.data.length : Int)

/-- One mutating operation against a bounded store. -/
inductive RrdbOp where
  | ins (key : String) (value : Bytes)
  | del (key : String)
  deriving DecidableEq, Repr

/-- Apply one operation; a failed `Insert` (empty key) leaves the store as
it was, exactly as in the source where the error path precedes any
mutation. -/
def applyRrdbOp (pick : List (String × Bytes) → String) (s : Rrdb) :
    RrdbOp → Rrdb
  | .ins k v =>
      match rrdbInsert pick s k v with
      | .ok s' => s'
      | .error _ => s
  | .del k => rrdbDelete s k

/-- Apply a finite sequence of operations, oldest first. -/
def applyRrdbOps (pick : List (String × Bytes) → String) (s : Rrdb)
    (ops : List RrdbOp) : Rrdb :=
  ops.foldl (applyRrdbOp pick) s

/-- A choice function that models Go's map range: on a nonempty map it
returns some key of the map. -/
def PickValid (pick : List (String × Bytes) → String) : Prop :=
  ∀ data : List (String × Bytes), data ≠ [] → pick data ∈ keysOf data

theorem applyRrdbOp_cap (pick : List (String × Bytes) → String) (s : Rrdb)
    (op : RrdbOp) : (applyRrdbOp pick s op).cap = s.cap := by
  cases op with
  | ins k v =>
      by_cases hk : k = "" <;>
        simp [applyRrdbOp, rrdbInsert, hk]
  | del k => rfl

theorem applyRrdbOp_size_le {pick : List (String × Bytes) → String}
    (hpick : PickValid pick) {s : Rrdb} (hcap : 0 < s.cap)
    (hsize : (s.data.length : Int) ≤ s.cap) (op : RrdbOp) :
    ((applyRrdbOp pick s op).data.length : Int) ≤ s.cap := by
  cases op with
  | del k =>
      have := length_mapDel_le s.data k
      simp only [applyRrdbOp, rrdbDelete]
      omega
  | ins k v =>
      by_cases hk : k = ""
      · simpa [applyRrdbOp, rrdbInsert, hk] using hsize
      · by_cases hfull : (s.data.length : Int) ≥ s.cap
        · have hne : s.data ≠ [] := by
            intro h0
            rw [h0] at hfull
            simp at hfull
            omega
          have hmem := hpick s.data hne
          have hdel := length_mapDel_of_mem hmem
          have hset := length_mapSet_le (mapDel s.data (pick s.data)) k v
          simp [applyRrdbOp, rrdbInsert, hk, hfull]
          omega
        · have hset := length_mapSet_le s.data k v
          simp [applyRrdbOp, rrdbInsert, hk, hfull]
          omega

theorem applyRrdbOp_nodup (pick : List (String × Bytes) → String)
    (s : Rrdb) (hnd : (keysOf s.data).Nodup) (op : RrdbOp) :
    (keysOf (applyRrdbOp pick s op).data).Nodup := by
  cases op with
  | del k => exact nodup_keysOf_mapDel k hnd
  | ins k v =>
      by_cases hk : k = ""
      · simpa [applyRrdbOp, rrdbInsert, hk] using hnd
      · by_cases hfull : (s.data.length : Int) ≥ s.cap
        · simp only [applyRrdbOp, rrdbInsert, hk, hfull]
          simp
          exact nodup_keysOf_mapSet k v (nodup_keysOf_mapDel _ hnd)
        · simp [applyRrdbOp, rrdbInsert, hk, hfull]
          exact nodup_keysOf_mapSet k v hnd

theorem applyRrdbOps_invariant {pick : List (String × Bytes) → String}
    (hpick : PickValid pick) (ops : List RrdbOp) :
    ∀ s : Rrdb, 0 < s.cap → (s.data.length : Int) ≤ s.cap →
      (keysOf s.data).Nodup →
      ((applyRrdbOps pick s ops).cap = s.cap ∧
       ((applyRrdbOps pick s ops).data.length : Int) ≤ s.cap ∧
       (keysOf (applyRrdbOps pick s ops).data).Nodup) := by
  induction ops with
  | nil => intro s _ h2 h3; exact ⟨rfl, h2, h3⟩
  | cons op rest ih =>
      intro s hcap hsize hnd
      have hcap' := applyRrdbOp_cap pick s op
      have h1 := applyRrdbOp_size_le hpick hcap hsize op
      have h2 := applyRrdbOp_nodup pick s hnd op
      have := ih (applyRrdbOp pick s op) (by omega) (by omega) h2
      simpa [applyRrdbOps, hcap'] using this

/-- A concrete eviction choice: take the first entry of the association
list.  This is one of the behaviours Go's arbitrary-order map range is
allowed to exhibit. -/
def pickHead (data : List (String × Bytes)) : String :=
  (data.headD ("", [])).1

theorem pickHead_valid : PickValid pickHead := by
  intro data hne
  cases data with
  | nil => exact absurd rfl hne
  | cons p rest =>
      obtain ⟨k, v⟩ := p
      simp [pickHead]

/-- C1: for every BoundedStore constructed with positive capacity `C`,
after every finite sequence of Insert and Delete operations, `Size()` is
never negative and never exceeds `C`.  The eviction choice `pick` is
universally quantified over all functions that model Go's map range
(returning a key of the map on nonempty maps). -/
theorem C1_size_bounded (pick : List (String × Bytes) → String)
    (hpick : PickValid pick) (cap : Int) (hcap : 0 < cap) (ops : List RrdbOp) :
    0 ≤ rrdbSize (applyRrdbOps pick (rrdbNew cap) ops) ∧
    rrdbSize (applyRrdbOps pick (rrdbNew cap) ops) ≤ cap := by
  have h := applyRrdbOps_invariant hpick ops (rrdbNew cap) hcap
    (by simp [rrdbNew]; omega) (by simp [rrdbNew])
  exact ⟨Int.ofNat_nonneg _, h.2.1⟩

theorem C1_size_bounded_witness :
    0 ≤ rrdbSize (applyRrdbOps pickHead (rrdbNew 2)
        [.ins "a" [1], .ins "b" [2], .ins "c" [3], .del "b"]) ∧
    rrdbSize (applyRrdbOps pickHead (rrdbNew 2)
        [.ins "a" [1], .ins "b" [2], .ins "c" [3], .del "b"]) ≤ 2 :=
  C1_size_bounded pickHead pickHead_valid 2 (by decide)
    [.ins "a" [1], .ins "b" [2], .ins "c" [3], .del "b"]

/-- A full store on which inserting the already-present key `"a"` evicts
the other entry `"b"` (a choice Go's map range may make). -/
def c2store : Rrdb := { cap := 2, data := [("b", [2]), ("a", [1])] }

/-- C2 fails on the code: in a store at capacity 2 holding keys `"b"` and
`"a"`, inserting the already-present key `"a"` under the eviction choice
that removes `"b"` (a key of the map, so a behaviour the Go range loop may
exhibit) leaves the final size at 1, not at the capacity 2: the source
evicts before checking whether the key is already present. -/
theorem C2_counterexample :
    rrdbSize c2store = 2 ∧
    "a" ∈ keysOf c2store.data ∧
    pickHead c2store.data ∈ keysOf c2store.data ∧
    rrdbInsert pickHead c2store "a" [9] =
      .ok { cap := 2, data := [("a", [9])] } ∧
    rrdbSize { cap := 2, data := [("a", [9])] } = 1 ∧
    (1 : Int) ≠ 2 := by
  exact ⟨by decide, by decide, by decide, rfl, by decide, by decide⟩

/-- C2 amended: in a store whose size equals its (positive) capacity,
inserting a non-empty key that is not present leaves the final size equal
to the capacity; inserting a non-empty key that is already present leaves
the final size equal to the capacity when the evicted entry is that very
key, and equal to capacity − 1 otherwise. -/
theorem C2_insert_at_capacity (pick : List (String × Bytes) → String)
    (s : Rrdb) (key : String) (v : Bytes)
    (hcap : 0 < s.cap) (hfull : (s.data.length : Int) = s.cap)
    (hnd : (keysOf s.data).Nodup)
    (hpick : s.data ≠ [] → pick s.data ∈ keysOf s.data)
    (hkey : key ≠ "") :
    ∃ s', rrdbInsert pick s key v = .ok s' ∧
      (key ∉ keysOf s.data → rrdbSize s' = s.cap) ∧
      (key ∈ keysOf s.data →
        rrdbSize s' = if pick s.data = key then s.cap else s.cap - 1) := by
  have hne : s.data ≠ [] := by
    intro h0
    rw [h0] at hfull
    simp at hfull
    omega
  have hmem := hpick hne
  have hfull' : (s.data.length : Int) ≥ s.cap := le_of_eq hfull.symm
  have hdel := length_mapDel_of_mem hmem
  refine ⟨{ s with data := mapSet (mapDel s.data (pick s.data)) key v }, ?_, ?_, ?_⟩
  · simp [rrdbInsert, hkey, hfull']
  · intro habs
    have habs' : key ∉ keysOf (mapDel s.data (pick s.data)) := by
      intro hin
      exact habs ((mem_keysOf_mapDel hnd).1 hin).1
    have := @length_mapSet_of_not_mem _ (mapDel s.data (pick s.data)) _ v habs'
    simp only [rrdbSize, this]
    push_cast
    omega
  · intro hpres
    by_cases hpk : pick s.data = key
    · have habs' : key ∉ keysOf (mapDel s.data (pick s.data)) := by
        intro hin
        exact ((mem_keysOf_mapDel hnd).1 hin).2 hpk.symm
      have := @length_mapSet_of_not_mem _ (mapDel s.data (pick s.data)) _ v habs'
      simp only [rrdbSize, this, if_pos hpk]
      push_cast
      omega
    · have hin : key ∈ keysOf (mapDel s.data (pick s.data)) := by
        refine (mem_keysOf_mapDel hnd).2 ⟨hpres, ?_⟩
        intro h
        exact hpk h.symm
      have := @length_mapSet_of_mem _ (mapDel s.data (pick s.data)) _ v hin
      simp only [rrdbSize, this, if_neg hpk]
      omega

theorem C2_insert_at_capacity_witness :
    ∃ s', rrdbInsert pickHead c2store "a" [9] = .ok s' ∧
      ("a" ∉ keysOf c2store.data → rrdbSize s' = c2store.cap) ∧
      ("a" ∈ keysOf c2store.data →
        rrdbSize s' = if pickHead c2store.data = "a" then c2store.cap
          else c2store.cap - 1) :=
  C2_insert_at_capacity pickHead c2store "a" [9] (by decide) (by decide)
    (by decide) (fun _ => by decide) (by decide)

/-- The `iterator` struct of `rrdb`: an index starting at −1 plus the
key and value slices copied out of the map by `newIterator`. -/
structure RrdbIter where
  index : Int
  keys : List String
  values : List Bytes
  deriving DecidableEq, Repr

/-- `newIterator(data)`: copy every key and value of the map into fresh
slices, starting the cursor at −1. -/
def newIterator (data : List (String × Bytes)) : RrdbIter :=
  { index := -1, keys := data.map Prod.fst, values := data.map Prod.snd }

/-- `rrdb.Iterator()`: snapshot the current map. -/
def rrdbIterator (s : Rrdb) : RrdbIter :=
  newIterator s.data

/-- `iterator.Next()`: advance the cursor, report whether it is in range. -/
def iterNext (it : RrdbIter) : Bool × RrdbIter :=
  let it' : RrdbIter := { it with index := it.index + 1 }
  (decide (it'.index < (it'.keys.length : Int)), it')

/-- `iterator.Key()`: `ErrIndexOutOfRange` at −1 or past the end,
otherwise the key under the cursor (the guards make the default of
`getD` unreachable, matching the source's in-range slice access). -/
def iterKey (it : RrdbIter) : Except DbErr String :=
  if it.index = -1 then .error .indexOutOfRange
  else if it.index ≥ (it.keys.length : Int) then .error .indexOutOfRange
  else .ok (it.keys.getD it.index.toNat "")

/-- `iterator.Value()`: same shape as `Key()` over the value slice. -/
def iterValue (it : RrdbIter) : Except DbErr Bytes :=
  if it.index = -1 then .error .indexOutOfRange
  else if it.index ≥ (it.values.length : Int) then .error .indexOutOfRange
  else .ok (it.values.getD it.index.toNat [])

/-- Drive an iterator to exhaustion the way every caller in the sources
does (`for iter.Next() { iter.Key(); iter.Value() }`), collecting the
yielded pairs; `fuel` bounds the number of `Next()` calls. -/
def iterRun : Nat → RrdbIter → List (String × Bytes)
  | 0, _ => []
  | fuel + 1, it =>
      match iterNext it with
      | (more, it') =>
        if more then
          match iterKey it', iterValue it' with
          | .ok k, .ok v => (k, v) :: iterRun fuel it'
          | _, _ => []
        else []

theorem iterRun_from {ks : List String} {vs : List Bytes}
    (hlen : vs.length = ks.length) :
    ∀ (fuel i : Nat), ks.length - i ≤ fuel →
      iterRun fuel { index := (i : Int) - 1, keys := ks, values := vs } =
        (ks.drop i).zip (vs.drop i) := by
  intro fuel
  induction fuel with
  | zero =>
      intro i hle
      have : ks.length ≤ i := by omega
      rw [iterRun, List.drop_eq_nil_of_le this]
      simp
  | succ n ih =>
      intro i hle
      by_cases hlt : i < ks.length
      · have hidx : ((i : Int) - 1) + 1 = (i : Int) := by ring
        have hmore : ((i : Int) < (ks.length : Int)) := by exact_mod_cast hlt
        have hltv : i < vs.length := by omega
        rw [iterRun]
        simp only [iterNext, hidx]
        rw [if_pos (by simpa using hmore)]
        have hne : (i : Int) ≠ -1 := by omega
        have hk : iterKey { index := (i : Int), keys := ks, values := vs } =
            .ok (ks.getD i "") := by
          simp only [iterKey, if_neg hne]
          rw [if_neg (by omega)]
          simp
        have hv : iterValue { index := (i : Int), keys := ks, values := vs } =
            .ok (vs.getD i []) := by
          simp only [iterValue, if_neg hne]
          rw [if_neg (by omega)]
          simp
        rw [hk, hv]
        have hstep : { index := (i : Int), keys := ks, values := vs } =
            ({ index := ((i + 1 : Nat) : Int) - 1, keys := ks, values := vs } : RrdbIter) := by
          simp
        rw [hstep, ih (i + 1) (by omega)]
        rw [List.drop_eq_getElem_cons hlt, List.drop_eq_getElem_cons hltv,
          List.zip_cons_cons]
        rw [List.getD_eq_getElem ks "" hlt, List.getD_eq_getElem vs [] hltv]
      · have hge : ks.length ≤ i := by omega
        rw [iterRun]
        simp only [iterNext]
        rw [if_neg (by simp; omega)]
        rw [List.drop_eq_nil_of_le hge]
        simp

theorem zip_keys_values (data : List (String × Bytes)) :
    (data.map Prod.fst).zip (data.map Prod.snd) = data := by
  induction data with
  | nil => rfl
  | cons p rest ih => simpa using ih

/-- C9: driving the iterator returned by `Iterator()` to exhaustion
yields exactly the (key, value) entries present in the store at the
moment of the call, each key exactly once.  The iterator value is built
by `newIterator` from a copy of the entries and carries no reference to
the live store, so mutations applied to the store afterwards — the
quantified `pick`/`muts`, which do not occur in the snapshot — leave the
yielded entries unchanged. -/
theorem C9_iterator_snapshot (s : Rrdb) (hnd : (keysOf s.data).Nodup) :
    iterRun s.data.length (rrdbIterator s) = s.data ∧
    ((iterRun s.data.length (rrdbIterator s)).map Prod.fst).Nodup ∧
    ∀ (_pick : List (String × Bytes) → String) (_muts : List RrdbOp),
      iterRun s.data.length (rrdbIterator s) = s.data := by
  have hrun : iterRun s.data.length (rrdbIterator s) = s.data := by
    have h0 := @iterRun_from (s.data.map Prod.fst) (s.data.map Prod.snd)
      (by simp) s.data.length 0 (by simp)
    simp only [Nat.cast_zero, List.drop_zero] at h0
    have hit : rrdbIterator s =
        { index := (0 : Int) - 1, keys := s.data.map Prod.fst,
          values := s.data.map Prod.snd } := by
      simp [rrdbIterator, newIterator]
    rw [hit, h0, zip_keys_values]
  refine ⟨hrun, ?_, ?_⟩
  · rw [hrun]
    exact hnd
  · intro _pick _muts
    exact hrun

theorem C9_iterator_snapshot_witness :
    iterRun c2store.data.length (rrdbIterator c2store) = c2store.data ∧
    ((iterRun c2store.data.length (rrdbIterator c2store)).map Prod.fst).Nodup ∧
    ∀ (_pick : List (String × Bytes) → String) (_muts : List RrdbOp),
      iterRun c2store.data.length (rrdbIterator c2store) = c2store.data :=
  C9_iterator_snapshot c2store (by decide)

/-- A value stored in the generic keyed store beneath the TTL table:
either opaque marshalled bytes (ordinary values and the empty slot
markers) or a marshalled `Pointer`.  The store's symmetric
marshal/unmarshal contract (spec §6) lets the model keep values typed. -/
inductive DBVal where
  | bytes (bs : Bytes)
  | pointer (p : Int)
  deriving DecidableEq, Repr

/-- The generic keyed store `db.DB` consumed by `cache/ttl` is an
external collaborator of the repository; modelled from the spec (§6) as
an association list over full physical keys. -/
abbrev DB := List (String × DBVal)

/-- Underlying-store `Get`. -/
def dbGet (db : DB) (k : String) : Option DBVal :=
  mapGet db k

/-- Underlying-store `Insert`. -/
def dbInsert (db : DB) (k : String) (v : DBVal) : DB :=
  mapSet db k v

/-- Underlying-store `Delete` (idempotent). -/
def dbDelete (db : DB) (k : String) : DB :=
  mapDel db k

/-- Underlying-store `Iterator(prefix)`, modelled from the spec (§6):
enumerate the keys sharing the prefix, yielding each logical key (the
part after the prefix), exactly as the sweep in `prune` relies on when it
rebuilds the two physical keys from `iter.Key()`. -/
def dbIterKeys (db : DB) (pfx : String) : List String :=
  (db.filter (fun p => pfx.isPrefixOf p.1)).map (fun p => p.1.drop pfx.length)

/-- The `inMemTTL` struct: the sha3-256 hash of the table name (kept
abstract as a string) and the prune interval in nanoseconds (Go
`time.Duration`). -/
structure InMemTTL where
  nameHash : String
  pruneInterval : Int
  deriving DecidableEq, Repr

/-- `PrunePointerKey`: the reserved logical key storing the pointer. -/
def PrunePointerKey : String := "prunePointer"

/-- Source `keyWithSlotPrefix`: the slot-marker key
`fmt.Sprintf("%v_slot%d_%v", nameHash, i, key)`. -/
def slotKey (t : InMemTTL) (key : String) (i : Int) : String :=
  t.nameHash ++ "_slot" ++ toString i ++ "_" ++ key

/-- Source `keyWithPrefix`: the value key `fmt.Sprintf("ttlDataTable_%v",
name)`.  The receiver is unused in the source body, so the key does not
depend on the table. -/
def valueKey (_t : InMemTTL) (name : String) : String :=
  "ttlDataTable_" ++ name

/-- Source `slotNo`: `moment.UnixNano() / pruneInterval.Nanoseconds()`.
Go's `/` on `int64` truncates toward zero, which is `Int.tdiv`. -/
def slotNo (t : InMemTTL) (momentNanos : Int) : Int :=
  momentNanos.tdiv t.pruneInterval

/-- One call issued to the underlying store; `ttlGet`/`ttlDelete` return
the calls they made so that "without invoking the underlying store" is a
statement about the model. -/
inductive DbCall where
  | getCall (k : String)
  | insertCall (k : String)
  | deleteCall (k : String)
  deriving DecidableEq, Repr

/-- `inMemTTL.Get`: reject the empty key before touching the store,
otherwise delegate to the underlying `Get` at the value key. -/
def ttlGet (t : InMemTTL) (db : DB) (key : String) :
    Except DbErr DBVal × List DbCall :=
  if key = "" then (.error .emptyKey, [])
  else
    match dbGet db (valueKey t key) with
    | some v => (.ok v, [.getCall (valueKey t key)])
    | none => (.error .keyNotFound, [.getCall (valueKey t key)])

/-- `inMemTTL.Delete`: reject the empty key before touching the store,
otherwise delegate to the underlying `Delete` at the value key (the slot
marker is left for the sweep). -/
def ttlDelete (t : InMemTTL) (db : DB) (key : String) :
    Except DbErr Unit × DB × List DbCall :=
  if key = "" then (.error .emptyKey, db, [])
  else (.ok (), dbDelete db (valueKey t key), [.deleteCall (valueKey t key)])

/-- `inMemTTL.Insert`: reject the empty key, write the value at the value
key, then write an empty marker at the slot key of the current slot. -/
def ttlInsert (t : InMemTTL) (db : DB) (now : Int) (key : String)
    (value : DBVal) : Except DbErr DB :=
  if key = "" then .error .emptyKey
  else
    let db1 := dbInsert db (valueKey t key) value
    .ok (dbInsert db1 (slotKey t key (slotNo t now)) (.bytes []))

/-- `inMemTTL.prunePointer`: read the persisted pointer; on
`ErrKeyNotFound` initialize it to `slotNo(now) − 1`, persist that value
and return it; on success return the stored pointer unchanged. -/
def prunePointer (t : InMemTTL) (db : DB) (now : Int) :
    Except DbErr (Int × DB) :=
  match dbGet db (slotKey t PrunePointerKey 0) with
  | some (.pointer p) => .ok (p, db)
  | some (.bytes _) => .error .unmarshalFail
  | none =>
      let slot := slotNo t now
      .ok (slot - 1, dbInsert db (slotKey t PrunePointerKey 0) (.pointer (slot - 1)))

/-- One inner iteration of `prune`'s slot loop: enumerate the markers of
the slot table and, for each yielded logical key, delete the value key
and then the marker key. -/
def sweepSlot (t : InMemTTL) (slot : Int) (db : DB) : DB :=
  (dbIterKeys db (slotKey t "" slot)).foldl
    (fun d key => dbDelete (dbDelete d (valueKey t key)) (slotKey t key slot)) db

/-- The `for slot := pointer+1; slot <= newSlotToDelete; slot++` loop as
a counted ascending iteration. -/
def pruneLoop (t : InMemTTL) : Nat → Int → DB → DB
  | 0, _, db => db
  | n + 1, slot, db => pruneLoop t n (slot + 1) (sweepSlot t slot db)

/-- `inMemTTL.prune`: compute `newSlotToDelete = slotNo(now − interval)`,
sweep every slot from `pointer + 1` up to it, then persist
`newSlotToDelete` under the pointer key (unconditionally). -/
def prune (t : InMemTTL) (db : DB) (pointer : Int) (now : Int) : DB :=
  let newSlotToDelete := slotNo t (now - t.pruneInterval)
  let db1 := pruneLoop t (newSlotToDelete - pointer).toNat (pointer + 1) db
  dbInsert db1 (slotKey t PrunePointerKey 0) (.pointer newSlotToDelete)

/-- Modelled from the spec (§4.4, step 2): the slots of the half-open
range `(p, cutoff]` in ascending order. -/
def slotsToSweep (p cutoff : Int) : List Int :=
  (List.range (cutoff - p).toNat).map (fun (i : Nat) => p + 1 + (i : Int))

/-- Modelled from the spec (§4.4, step 2): for each enumerated marker,
delete the corresponding value key and the marker key. -/
def deleteMarked (t : InMemTTL) (slot : Int) (db : DB) : List String → DB
  | [] => db
  | key :: rest =>
      deleteMarked t slot (dbDelete (dbDelete db (valueKey t key)) (slotKey t key slot)) rest

/-- Modelled from the spec (§4.4, step 2): sweep one slot by enumerating
every marker registered at it. -/
def sweepSlotSpec (t : InMemTTL) (slot : Int) (db : DB) : DB :=
  deleteMarked t slot db (dbIterKeys db (slotKey t "" slot))

/-- Modelled from the spec (§4.4, steps 1–3): compute
`cutoff = slotNumber(now − I)`, sweep every slot in `(p, cutoff]`
ascending, then persist the new pointer as `cutoff` (even if no slot was
swept). -/
def pruneSpec (t : InMemTTL) (db : DB) (p : Int) (now : Int) : DB :=
  let cutoff := slotNo t (now - t.pruneInterval)
  let swept := (slotsToSweep p cutoff).foldl (fun d s => sweepSlotSpec t s d) db
  dbInsert swept (slotKey t PrunePointerKey 0) (.pointer cutoff)

/-- Outcome of one iteration of `runPruneOnInterval`'s select loop. -/
inductive SchedOutcome where
  | stopCancelled
  | panicked
  | stopAfterLog
  | keepRunning
  deriving DecidableEq, Repr

/-- One iteration of `inMemTTL.runPruneOnInterval`: if the context is
done, return; on a tick, read the prune pointer — a failure there is a
`panic` — then run the sweep — a failure there is logged via `log.Printf`
and the loop `return`s; only a fully successful tick keeps the loop
running.  The read and sweep outcomes are parameters because they come
from the external underlying store. -/
def runPruneStep (ctxDone : Bool) (pointerRes : Except DbErr Int)
    (pruneRes : Int → Except DbErr Unit) : SchedOutcome :=
  if ctxDone then .stopCancelled
  else
    match pointerRes with
    | .error _ => .panicked
    | .ok p =>
        match pruneRes p with
        | .error _ => .stopAfterLog
        | .ok _ => .keepRunning

theorem mapGet_mapSet_self {α : Type} (data : List (String × α)) (k : String) (v : α) :
    mapGet (mapSet data k v) k = some v := by
  induction data with
  | nil => simp [mapSet, mapGet]
  | cons p rest ih =>
      obtain ⟨k', v'⟩ := p
      by_cases h : k' = k
      · simp [mapSet, mapGet, h]
      · simp [mapSet, mapGet, h, ih]

theorem deleteMarked_eq_foldl (t : InMemTTL) (slot : Int) :
    ∀ (keys : List String) (db : DB),
      deleteMarked t slot db keys =
        keys.foldl (fun d key => dbDelete (dbDelete d (valueKey t key)) (slotKey t key slot)) db := by
  intro keys
  induction keys with
  | nil => intro db; rfl
  | cons key rest ih => intro db; simp [deleteMarked, List.foldl_cons, ih]

theorem sweepSlotSpec_eq (t : InMemTTL) (slot : Int) (db : DB) :
    sweepSlotSpec t slot db = sweepSlot t slot db := by
  rw [sweepSlotSpec, deleteMarked_eq_foldl, sweepSlot]

theorem pruneLoop_eq_foldl (t : InMemTTL) :
    ∀ (n : Nat) (s : Int) (db : DB),
      pruneLoop t n s db =
        ((List.range n).map (fun (i : Nat) => s + (i : Int))).foldl
          (fun d sl => sweepSlot t sl d) db := by
  intro n
  induction n with
  | zero => intro s db; rfl
  | succ m ih =>
      intro s db
      have hcons : (List.range (m + 1)).map (fun (i : Nat) => s + (i : Int)) =
          s :: (List.range m).map (fun (i : Nat) => (s + 1) + (i : Int)) := by
        rw [List.range_succ_eq_map, List.map_cons, List.map_map]
        congr 1
        · simp
        · apply List.map_congr_left
          intro i _
          simp [Function.comp]
          ring
      rw [pruneLoop, ih (s + 1) (sweepSlot t s db), hcons, List.foldl_cons]

theorem dbGet_prune_ptr (t : InMemTTL) (db : DB) (pointer now : Int) :
    dbGet (prune t db pointer now) (slotKey t PrunePointerKey 0) =
      some (.pointer (slotNo t (now - t.pruneInterval))) := by
  rw [prune]
  exact mapGet_mapSet_self _ _ _

/-- C4: one sweep computes `cutoff = slotNo(now − interval)` and behaves
exactly as the spec's sweep algorithm describes: for every slot `s` in
`(p, cutoff]` in ascending order it deletes, for each logical key
registered at slot `s`, the key's value key and the key's slot-marker
key, and it then persists `cutoff` as the new pointer — including when
`cutoff = p`, where no slot is swept and the pointer write still
happens. -/
theorem C4_prune_matches_sweep_algorithm (t : InMemTTL) (db : DB)
    (pointer now : Int) :
    prune t db pointer now = pruneSpec t db pointer now ∧
    dbGet (prune t db pointer now) (slotKey t PrunePointerKey 0) =
      some (.pointer (slotNo t (now - t.pruneInterval))) ∧
    (slotNo t (now - t.pruneInterval) = pointer →
      prune t db pointer now =
        dbInsert db (slotKey t PrunePointerKey 0) (.pointer pointer)) := by
  refine ⟨?_, dbGet_prune_ptr t db pointer now, ?_⟩
  · rw [prune, pruneSpec]
    congr 1
    rw [pruneLoop_eq_foldl, slotsToSweep]
    have hmap : (List.range (slotNo t (now - t.pruneInterval) - pointer).toNat).map
          (fun (i : Nat) => pointer + 1 + (i : Int)) =
        (List.range (slotNo t (now - t.pruneInterval) - pointer).toNat).map
          (fun (i : Nat) => (pointer + 1) + (i : Int)) := rfl
    rw [hmap]
    have hfun : (fun (d : DB) (s : Int) => sweepSlotSpec t s d) =
        (fun (d : DB) (s : Int) => sweepSlot t s d) := by
      funext d s
      rw [sweepSlotSpec_eq]
    rw [hfun]
  · intro hcut
    rw [prune, hcut]
    simp [pruneLoop]

theorem C4_prune_matches_sweep_algorithm_witness :
    prune { nameHash := "h", pruneInterval := 2 } [] 3 8 =
      dbInsert [] (slotKey { nameHash := "h", pruneInterval := 2 } PrunePointerKey 0)
        (.pointer 3) ∧
    prune { nameHash := "h", pruneInterval := 2 } [] 3 8 =
      pruneSpec { nameHash := "h", pruneInterval := 2 } [] 3 8 :=
  ⟨(C4_prune_matches_sweep_algorithm { nameHash := "h", pruneInterval := 2 } [] 3 8).2.2
      (by decide),
   (C4_prune_matches_sweep_algorithm { nameHash := "h", pruneInterval := 2 } [] 3 8).1⟩

/-- C5 fails on the code: on a tick where reading the prune pointer
fails, `runPruneOnInterval` panics (crashing the process), and on a tick
where the sweep fails it logs and then `return`s, terminating the
periodic loop permanently — it does not retry on the next tick. -/
theorem C5_counterexample :
    runPruneStep false (.error .keyNotFound) (fun _ => .ok ()) = .panicked ∧
    runPruneStep false (.ok 0) (fun _ => .error .notFound) = .stopAfterLog ∧
    SchedOutcome.panicked ≠ SchedOutcome.keepRunning ∧
    SchedOutcome.stopAfterLog ≠ SchedOutcome.keepRunning :=
  ⟨rfl, rfl, by decide, by decide⟩

/-- C5 amended: a sweep failure is logged but terminates the loop, a
pointer-read failure panics, and the loop keeps running only when the
pointer read and the whole sweep both succeeded, so no failing tick is
retried. -/
theorem C5_scheduler_failure_behaviour (p : Int) (e e' : DbErr)
    (pruneRes : Int → Except DbErr Unit) :
    runPruneStep false (.ok p) (fun _ => .error e) = .stopAfterLog ∧
    runPruneStep false (.error e') pruneRes = .panicked ∧
    (∀ (pointerRes : Except DbErr Int) (pf : Int → Except DbErr Unit),
      runPruneStep false pointerRes pf = .keepRunning ↔
        ∃ q, pointerRes = .ok q ∧ pf q = .ok ()) := by
  refine ⟨rfl, rfl, ?_⟩
  intro pointerRes pf
  cases pointerRes with
  | error err => simp [runPruneStep]
  | ok q =>
      cases hq : pf q with
      | error err =>
          simp [runPruneStep, hq]
      | ok u =>
          simp [runPruneStep, hq]

/-- C8: on construction `prunePointer` returns a persisted pointer
unchanged (and leaves the store untouched); when no pointer is persisted
it returns `slotNo(now) − 1` after persisting exactly that value. -/
theorem C8_pointer_recovery (t : InMemTTL) (db : DB) (now p : Int) :
    (dbGet db (slotKey t PrunePointerKey 0) = some (.pointer p) →
      prunePointer t db now = .ok (p, db)) ∧
    (dbGet db (slotKey t PrunePointerKey 0) = none →
      prunePointer t db now =
        .ok (slotNo t now - 1,
          dbInsert db (slotKey t PrunePointerKey 0) (.pointer (slotNo t now - 1))) ∧
      dbGet (dbInsert db (slotKey t PrunePointerKey 0) (.pointer (slotNo t now - 1)))
          (slotKey t PrunePointerKey 0) = some (.pointer (slotNo t now - 1))) := by
  constructor
  · intro hsome
    rw [prunePointer, hsome]
  · intro hnone
    rw [prunePointer, hnone]
    exact ⟨rfl, mapGet_mapSet_self _ _ _⟩

theorem C8_pointer_recovery_witness :
    prunePointer { nameHash := "h", pruneInterval := 2 }
        [(slotKey { nameHash := "h", pruneInterval := 2 } PrunePointerKey 0, .pointer 7)] 9 =
      .ok (7, [(slotKey { nameHash := "h", pruneInterval := 2 } PrunePointerKey 0, .pointer 7)]) ∧
    prunePointer { nameHash := "h", pruneInterval := 2 } [] 9 =
      .ok (slotNo { nameHash := "h", pruneInterval := 2 } 9 - 1,
        dbInsert [] (slotKey { nameHash := "h", pruneInterval := 2 } PrunePointerKey 0)
          (.pointer (slotNo { nameHash := "h", pruneInterval := 2 } 9 - 1))) :=
  ⟨(C8_pointer_recovery { nameHash := "h", pruneInterval := 2 }
      [(slotKey { nameHash := "h", pruneInterval := 2 } PrunePointerKey 0, .pointer 7)] 9 7).1
      (by rw [dbGet, mapGet]; simp),
   ((C8_pointer_recovery { nameHash := "h", pruneInterval := 2 } [] 9 0).2 rfl).1⟩

/-- C10: `Get` and `Delete` on the TTL decorator both reject the
empty-string key with the `EmptyKey` error synchronously, issuing no call
to the underlying keyed store and leaving it unchanged. -/
theorem C10_empty_key_guards (t : InMemTTL) (db : DB) :
    ttlGet t db "" = (.error .emptyKey, []) ∧
    ttlDelete t db "" = (.error .emptyKey, db, []) :=
  ⟨rfl, rfl⟩

theorem tdiv_le_tdiv_right {a b c : Int} (hc : 0 < c) (h : a ≤ b) :
    a.tdiv c ≤ b.tdiv c := by
  rcases le_or_lt 0 a with ha | ha
  · rw [Int.tdiv_eq_ediv ha hc.le, Int.tdiv_eq_ediv (le_trans ha h) hc.le]
    exact Int.ediv_le_ediv hc h
  · rcases le_or_lt 0 b with hb | hb
    · have ea : a.tdiv c = -((-a).tdiv c) := by rw [← Int.neg_tdiv, neg_neg]
      have h1 : 0 ≤ (-a).tdiv c := Int.tdiv_nonneg (by omega) hc.le
      have h2 : 0 ≤ b.tdiv c := Int.tdiv_nonneg hb hc.le
      omega
    · have ea : a.tdiv c = -((-a).tdiv c) := by rw [← Int.neg_tdiv, neg_neg]
      have eb : b.tdiv c = -((-b).tdiv c) := by rw [← Int.neg_tdiv, neg_neg]
      have hle : (-b).tdiv c ≤ (-a).tdiv c := by
        rw [Int.tdiv_eq_ediv (by omega) hc.le, Int.tdiv_eq_ediv (by omega) hc.le]
        exact Int.ediv_le_ediv hc (by omega)
      omega

theorem tdiv_sub_self_ge {a b : Int} (hb : 0 < b) :
    a.tdiv b - 1 ≤ (a - b).tdiv b := by
  rcases le_or_lt b a with hba | hba
  · have h1 : a.tdiv b = a / b := Int.tdiv_eq_ediv (by omega) hb.le
    have h2 : (a - b).tdiv b = (a - b) / b := Int.tdiv_eq_ediv (by omega) hb.le
    have h3 : (a - b) / b = a / b - 1 := by
      have h := Int.add_mul_ediv_right a (-1) hb.ne'
      have e : a + (-1) * b = a - b := by ring
      rw [e] at h
      omega
    omega
  · rcases le_or_lt 0 a with ha | ha
    · have h1 : a.tdiv b = 0 := by
        rw [Int.tdiv_eq_ediv ha hb.le]
        exact Int.ediv_eq_zero_of_lt ha hba
      have e : (a - b).tdiv b = -((b - a).tdiv b) := by
        rw [← Int.neg_tdiv]
        congr 1
        ring
      have h2 : (b - a).tdiv b = (b - a) / b := Int.tdiv_eq_ediv (by omega) hb.le
      have h3 : (b - a) / b ≤ b / b := Int.ediv_le_ediv hb (by omega)
      have h4 : b / b = 1 := Int.ediv_self hb.ne'
      omega
    · have ea : a.tdiv b = -((-a).tdiv b) := by rw [← Int.neg_tdiv, neg_neg]
      have e : (a - b).tdiv b = -((b - a).tdiv b) := by
        rw [← Int.neg_tdiv]
        congr 1
        ring
      have h2 : (b - a).tdiv b = (b - a) / b := Int.tdiv_eq_ediv (by omega) hb.le
      have h4 : (-a).tdiv b = (-a) / b := Int.tdiv_eq_ediv (by omega) hb.le
      have h5 : (b - a) / b = (-a) / b + 1 := by
        have h := Int.add_mul_ediv_right (-a) 1 hb.ne'
        have eab : -a + 1 * b = b - a := by ring
        rw [eab] at h
        omega
      omega

/-- C6 fails on the code for timestamps before the epoch: Go's `/` on
`int64` truncates toward zero, so at timestamp −1 ns with interval 2 ns
`slotNo` yields 0 while the floor of −1/2 is −1. -/
theorem C6_counterexample :
    slotNo { nameHash := "h", pruneInterval := 2 } (-1) = 0 ∧
    Int.fdiv (-1) 2 = -1 ∧
    slotNo { nameHash := "h", pruneInterval := 2 } (-1) ≠ Int.fdiv (-1) 2 := by
  decide

/-- C6 amended: for a fixed positive interval, `slotNo` is exact integer
division truncated toward zero (`Int.tdiv`, Go's `/`); it agrees with
floor division for non-negative timestamps, is a pure function of its
argument, and is non-decreasing in the timestamp — but it is not floor
division on negative timestamps. -/
theorem C6_slotNo_truncated_division (t : InMemTTL) (hI : 0 < t.pruneInterval) :
    (∀ ts : Int, slotNo t ts = ts.tdiv t.pruneInterval) ∧
    (∀ ts : Int, 0 ≤ ts → slotNo t ts = ts.fdiv t.pruneInterval) ∧
    (∀ ts1 ts2 : Int, ts1 = ts2 → slotNo t ts1 = slotNo t ts2) ∧
    (∀ ts1 ts2 : Int, ts1 ≤ ts2 → slotNo t ts1 ≤ slotNo t ts2) := by
  refine ⟨fun ts => rfl, ?_, fun ts1 ts2 h => by rw [h], ?_⟩
  · intro ts hts
    rw [slotNo, Int.tdiv_eq_ediv hts hI.le, Int.fdiv_eq_ediv ts hI.le]
  · intro ts1 ts2 h
    exact tdiv_le_tdiv_right hI h

theorem C6_slotNo_truncated_division_witness :
    slotNo { nameHash := "h", pruneInterval := 2 } 5 = Int.tdiv 5 2 ∧
    slotNo { nameHash := "h", pruneInterval := 2 } 5 = Int.fdiv 5 2 ∧
    slotNo { nameHash := "h", pruneInterval := 2 } 3 ≤
      slotNo { nameHash := "h", pruneInterval := 2 } 5 :=
  ⟨(C6_slotNo_truncated_division { nameHash := "h", pruneInterval := 2 }
      (by decide)).1 5,
   (C6_slotNo_truncated_division { nameHash := "h", pruneInterval := 2 }
      (by decide)).2.1 5 (by decide),
   (C6_slotNo_truncated_division { nameHash := "h", pruneInterval := 2 }
      (by decide)).2.2.2 3 5 (by decide)⟩

/-- C7: with a non-decreasing clock, every write of the persisted prune
pointer stores a value at least the previously stored one.  The two write
forms in the source are the initialization `slotNo(now) − 1` (in
`prunePointer`, only ever the first write) and the sweep's
`slotNo(now − interval)` (in `prune`): a sweep write at time `now1`
dominates both an initialization write and an earlier sweep write made at
any earlier time `now0`. -/
theorem C7_pointer_writes_monotone (t : InMemTTL) (hI : 0 < t.pruneInterval)
    (now0 now1 : Int) (h01 : now0 ≤ now1) :
    slotNo t now0 - 1 ≤ slotNo t (now1 - t.pruneInterval) ∧
    slotNo t (now0 - t.pruneInterval) ≤ slotNo t (now1 - t.pruneInterval) ∧
    (∀ ts : List Int, List.Chain' (· ≤ ·) (now0 :: ts) →
      List.Chain' (· ≤ ·)
        ((slotNo t now0 - 1) ::
          ts.map (fun x => slotNo t (x - t.pruneInterval)))) := by
  have hmono : slotNo t (now0 - t.pruneInterval) ≤ slotNo t (now1 - t.pruneInterval) :=
    tdiv_le_tdiv_right hI (by omega)
  have hshift : slotNo t now0 - 1 ≤ slotNo t (now0 - t.pruneInterval) :=
    tdiv_sub_self_ge hI
  refine ⟨by omega, hmono, ?_⟩
  intro ts hts
  cases ts with
  | nil => simp
  | cons x rest =>
      rw [List.chain'_cons] at hts
      obtain ⟨h0x, hchain⟩ := hts
      have hmap : List.Chain' (· ≤ ·)
          ((x :: rest).map (fun y => slotNo t (y - t.pruneInterval))) := by
        rw [List.chain'_map]
        refine List.Chain'.imp ?_ hchain
        intro a b hab
        exact tdiv_le_tdiv_right hI (by omega)
      rw [List.map_cons] at hmap ⊢
      rw [List.chain'_cons]
      refine ⟨?_, hmap⟩
      have h2 : slotNo t (now0 - t.pruneInterval) ≤ slotNo t (x - t.pruneInterval) :=
        tdiv_le_tdiv_right hI (by omega)
      omega

theorem C7_pointer_writes_monotone_witness :
    (slotNo { nameHash := "h", pruneInterval := 2 } 5 - 1 ≤
      slotNo { nameHash := "h", pruneInterval := 2 } (9 - (2 : Int))) ∧
    (slotNo { nameHash := "h", pruneInterval := 2 } (5 - (2 : Int)) ≤
      slotNo { nameHash := "h", pruneInterval := 2 } (9 - (2 : Int))) ∧
    List.Chain' (· ≤ ·)
      ((slotNo { nameHash := "h", pruneInterval := 2 } 5 - 1) ::
        ([(9 : Int)]).map
          (fun x => slotNo { nameHash := "h", pruneInterval := 2 }
            (x - ({ nameHash := "h", pruneInterval := 2 } : InMemTTL).pruneInterval))) :=
  ⟨(C7_pointer_writes_monotone { nameHash := "h", pruneInterval := 2 }
      (by decide) 5 9 (by decide)).1,
   (C7_pointer_writes_monotone { nameHash := "h", pruneInterval := 2 }
      (by decide) 5 9 (by decide)).2.1,
   (C7_pointer_writes_monotone { nameHash := "h", pruneInterval := 2 }
      (by decide) 5 9 (by decide)).2.2 [9] (by simp)⟩

theorem append_ne_append_of_ne {h1 h2 r1 r2 : String}
    (hlen : h1.length = h2.length) (hne : h1 ≠ h2) : h1 ++ r1 ≠ h2 ++ r2 := by
  intro he
  apply hne
  have hd : h1.data ++ r1.data = h2.data ++ r2.data := by
    rw [← String.data_append, ← String.data_append, he]
  exact String.ext (List.append_inj hd hlen).1

/-- C3 fails on the code: two TTL tables with distinct name hashes share
physical value keys, because `keyWithPrefix` ignores the table's hash and
prepends only the constant `"ttlDataTable_"`; the same logical key in
either table is the same physical key. -/
theorem C3_counterexample :
    ({ nameHash := "A", pruneInterval := 1 } : InMemTTL).nameHash ≠
      ({ nameHash := "B", pruneInterval := 1 } : InMemTTL).nameHash ∧
    valueKey { nameHash := "A", pruneInterval := 1 } "k" =
      valueKey { nameHash := "B", pruneInterval := 1 } "k" :=
  ⟨by decide, rfl⟩

/-- C3 amended: for two tables whose name hashes are distinct and of
equal length (sha3-256 digests always have 32 bytes), the slot-marker
keys never collide across the tables for any logical keys and slots; the
value keys, however, are not namespaced at all — the same logical key
yields the identical physical value key in both tables. -/
theorem C3_slot_keys_disjoint (t1 t2 : InMemTTL)
    (hlen : t1.nameHash.length = t2.nameHash.length)
    (hne : t1.nameHash ≠ t2.nameHash) :
    (∀ (k1 k2 : String) (i1 i2 : Int), slotKey t1 k1 i1 ≠ slotKey t2 k2 i2) ∧
    (∀ k : String, valueKey t1 k = valueKey t2 k) := by
  refine ⟨?_, fun k => rfl⟩
  intro k1 k2 i1 i2
  have e1 : slotKey t1 k1 i1 =
      t1.nameHash ++ ("_slot" ++ toString i1 ++ "_" ++ k1) := by
    simp [slotKey, String.append_assoc]
  have e2 : slotKey t2 k2 i2 =
      t2.nameHash ++ ("_slot" ++ toString i2 ++ "_" ++ k2) := by
    simp [slotKey, String.append_assoc]
  rw [e1, e2]
  exact append_ne_append_of_ne hlen hne

theorem C3_slot_keys_disjoint_witness :
    slotKey { nameHash := "A", pruneInterval := 1 } "k" 0 ≠
      slotKey { nameHash := "B", pruneInterval := 1 } "k" 0 ∧
    valueKey { nameHash := "A", pruneInterval := 1 } "k" =
      valueKey { nameHash := "B", pruneInterval := 1 } "k" :=
  ⟨(C3_slot_keys_disjoint { nameHash := "A", pruneInterval := 1 }
      { nameHash := "B", pruneInterval := 1 } rfl (by decide)).1 "k" "k" 0 0,
   (C3_slot_keys_disjoint { nameHash := "A", pruneInterval := 1 }
      { nameHash := "B", pruneInterval := 1 } rfl (by decide)).2 "k"⟩

end Store
